import Mathlib

set_option maxRecDepth 8000

/-
Shallow embedding of the gradient-map core of src/script.js:
parseColorInput, getGradientColor, createGradientLUT, applyGradientMap,
hexToRgb.  JavaScript numbers reachable in this code are exact rationals
or NaN (no infinity arises: every division is by a nonzero constant or
sits behind an explicit `range === 0` test), so numbers are modelled by
`JsNum`.  Pixel buffers are lists of integers (the Uint8ClampedArray
bytes), LUTs are lists of colour triples.
-/

inductive JsNum where
  | nan : JsNum
  | num : ℚ → JsNum
deriving DecidableEq

def jsAdd : JsNum → JsNum → JsNum
  | JsNum.num a, JsNum.num b => JsNum.num (a + b)
  | _, _ => JsNum.nan

def jsSub : JsNum → JsNum → JsNum
  | JsNum.num a, JsNum.num b => JsNum.num (a - b)
  | _, _ => JsNum.nan

def jsMul : JsNum → JsNum → JsNum
  | JsNum.num a, JsNum.num b => JsNum.num (a * b)
  | _, _ => JsNum.nan

-- Division: in the source every division is either by a nonzero constant
-- (100, 255) or guarded by `range === 0`, so the zero-denominator branch
-- below never fires; it is sent to NaN.
def jsDiv : JsNum → JsNum → JsNum
  | JsNum.num a, JsNum.num b => if b = 0 then JsNum.nan else JsNum.num (a / b)
  | _, _ => JsNum.nan

-- Math.round: round half toward positive infinity.
def jsRound (q : ℚ) : ℤ := ⌊q + 1 / 2⌋

def jsRoundN : JsNum → JsNum
  | JsNum.nan => JsNum.nan
  | JsNum.num q => JsNum.num ((jsRound q : ℤ) : ℚ)

-- position >= x / position <= x: any comparison against NaN is false.
def jsGeB : JsNum → JsNum → Bool
  | JsNum.num a, JsNum.num b => decide (b ≤ a)
  | _, _ => false

def jsLeB : JsNum → JsNum → Bool
  | JsNum.num a, JsNum.num b => decide (a ≤ b)
  | _, _ => false

-- Math.min(1, p) and Math.max(0, p): NaN propagates through both.
def jsMin1 : JsNum → JsNum
  | JsNum.nan => JsNum.nan
  | JsNum.num q => JsNum.num (min 1 q)

def jsMax0 : JsNum → JsNum
  | JsNum.nan => JsNum.nan
  | JsNum.num q => JsNum.num (max 0 q)

def jsClamp01 (p : JsNum) : JsNum := jsMax0 (jsMin1 p)

def isNum : JsNum → Bool
  | JsNum.nan => false
  | JsNum.num _ => true

def mkStr (cs : List Char) : String := String.mk cs

-- JavaScript \s (the whitespace class of the splitting regex and of trim).
def isJsWhitespace (c : Char) : Bool :=
  let n := c.toNat
  n == 9 || n == 10 || n == 11 || n == 12 || n == 13 || n == 32 ||
  n == 160 || n == 5760 || (8192 ≤ n && n ≤ 8202) || n == 8232 ||
  n == 8233 || n == 8239 || n == 8287 || n == 12288 || n == 65279

def isSepChar (c : Char) : Bool := isJsWhitespace c || c == ','

def splitAux (p : Char → Bool) : List Char → List Char → List (List Char)
  | [], acc => [acc.reverse]
  | c :: rest, acc =>
      if p c then acc.reverse :: splitAux p rest []
      else splitAux p rest (c :: acc)

-- input.split(/[\s,]+/).filter(c => c.trim()): splitting on single
-- separator characters and dropping empty pieces agrees with splitting
-- on maximal runs and dropping falsy pieces (a surviving token contains
-- no whitespace, so trim is the identity on it and truthiness is
-- nonemptiness).
def jsTokens (input : String) : List String :=
  ((splitAux isSepChar input.data []).filter (fun t => !t.isEmpty)).map mkStr

def jsTrim (s : String) : String :=
  mkStr (((s.data.dropWhile isJsWhitespace).reverse.dropWhile isJsWhitespace).reverse)

def jsUpper (s : String) : String := mkStr (s.data.map Char.toUpper)

def hasHyphen (s : String) : Bool := s.data.any (fun c => c = '-')

-- String.prototype.split('-'): keeps empty pieces.
def splitHyphen (s : String) : List String :=
  (splitAux (fun c => c = '-') s.data []).map mkStr

def startsHash (s : String) : Bool :=
  match s.data with
  | '#' :: _ => true
  | _ => false

def withHash (s : String) : String :=
  if startsHash s then s else mkStr ('#' :: s.data)

-- The class [0-9A-F] under the regex i flag.
def isHexChar (c : Char) : Bool :=
  let n := c.toNat
  (48 ≤ n && n ≤ 57) || (97 ≤ n && n ≤ 102) || (65 ≤ n && n ≤ 70)

-- The test /^#[0-9A-F]{6}$/i on the prefixed token.
def testHex6 (s : String) : Bool :=
  match s.data with
  | '#' :: rest => rest.length == 6 && rest.all isHexChar
  | _ => false

def isDecDigit (c : Char) : Bool := 48 ≤ c.toNat && c.toNat ≤ 57

def hexDigitValN (c : Char) : ℕ :=
  let n := c.toNat
  if n ≤ 57 then n - 48 else if 97 ≤ n then n - 87 else n - 55

def digitsToNat (ds : List Char) : ℕ :=
  ds.foldl (fun a c => 10 * a + (c.toNat - 48)) 0

def hexDigitsToNat (ds : List Char) : ℕ :=
  ds.foldl (fun a c => 16 * a + hexDigitValN c) 0

def parseDecDigits (cs : List Char) : Option ℕ :=
  let ds := cs.takeWhile isDecDigit
  if ds.isEmpty then none else some (digitsToNat ds)

def parseHexDigits (cs : List Char) : Option ℕ :=
  let ds := cs.takeWhile isHexChar
  if ds.isEmpty then none else some (hexDigitsToNat ds)

def jsParseIntCore (cs : List Char) : Option ℕ :=
  match cs with
  | '0' :: 'x' :: rest => parseHexDigits rest
  | '0' :: 'X' :: rest => parseHexDigits rest
  | _ => parseDecDigits cs

-- parseInt: optional sign, optional 0x radix marker, then the longest
-- digit run; NaN (none) when there are no digits.  Leading whitespace
-- cannot occur here, tokens are split on whitespace.
def jsParseInt (s : String) : Option ℤ :=
  match s.data with
  | '-' :: rest => (jsParseIntCore rest).map (fun n => -(n : ℤ))
  | '+' :: rest => (jsParseIntCore rest).map (fun n => (n : ℤ))
  | cs => (jsParseIntCore cs).map (fun n => (n : ℤ))

structure Stop where
  color : String
  position : JsNum
deriving DecidableEq

-- In the forEach body, when the token contains a hyphen the variable
-- hexColor is reassigned to parts[0] and position to
-- parseInt(parts[1]) / 100 (NaN when parseInt fails); the two
-- reassignments are modelled by the next two functions.
def colorPart (t : String) : String :=
  if hasHyphen t then ((splitHyphen t).get? 0).getD "" else t

def explicitPos (t : String) : Option JsNum :=
  if hasHyphen t then
    some (match jsParseInt (((splitHyphen t).get? 1).getD "") with
          | some n => JsNum.num ((n : ℚ) / 100)
          | none => JsNum.nan)
  else none

-- The body of the forEach in parseColorInput; total is colors.length,
-- index the token's index in the split list (invalid tokens keep their
-- index).  Returns none when the token is dropped by the regex test.
def processToken (total index : ℕ) (color : String) : Option Stop :=
  let t := jsUpper (jsTrim color)
  let hexColor := withHash (colorPart t)
  if testHex6 hexColor then
    let position : JsNum :=
      match explicitPos t with
      | some p => p
      | none =>
          if 1 < total then JsNum.num ((index : ℚ) / ((total : ℚ) - 1))
          else JsNum.num 0
    some { color := hexColor, position := jsClamp01 position }
  else none

-- stops.sort((a, b) => a.position - b.position): a stable sort; ES
-- SortCompare maps a NaN comparator value to +0, i.e. ties.
def jsCompareLe (a b : JsNum) : Bool :=
  match a, b with
  | JsNum.num x, JsNum.num y => decide (x ≤ y)
  | _, _ => true

def ordIns (a : Stop) : List Stop → List Stop
  | [] => [a]
  | b :: l =>
      if jsCompareLe a.position b.position then a :: b :: l else b :: ordIns a l

def sortStops : List Stop → List Stop
  | [] => []
  | a :: l => ordIns a (sortStops l)

def preStops (input : String) : List Stop :=
  let colors := jsTokens input
  (colors.enum).filterMap (fun p => processToken colors.length p.1 p.2)

def parseColorInput (input : String) : List Stop := sortStops (preStops input)

structure RGBi where
  r : ℤ
  g : ℤ
  b : ℤ
deriving DecidableEq

def hexByte (c1 c2 : Char) : ℤ := 16 * (hexDigitValN c1 : ℤ) + (hexDigitValN c2 : ℤ)

-- /^#?([a-f\d]{2})([a-f\d]{2})([a-f\d]{2})$/i applied to the characters
-- after the optional leading hash: exactly six hex digits.
def hexToRgbCore (cs : List Char) : RGBi :=
  match cs with
  | [c1, c2, c3, c4, c5, c6] =>
      if [c1, c2, c3, c4, c5, c6].all isHexChar then
        { r := hexByte c1 c2, g := hexByte c3 c4, b := hexByte c5 c6 }
      else { r := 0, g := 0, b := 0 }
  | _ => { r := 0, g := 0, b := 0 }

-- hexToRgb with {r:0,g:0,b:0} on regex failure.
def hexToRgb (hex : String) : RGBi :=
  hexToRgbCore (if startsHash hex then hex.data.tail else hex.data)

structure RGBj where
  r : JsNum
  g : JsNum
  b : JsNum
deriving DecidableEq

-- The scan for the first adjacent pair with
-- stops[i].position <= position <= stops[i+1].position.
def findPair (position : JsNum) : List Stop → Option (Stop × Stop)
  | a :: b :: rest =>
      if jsGeB position a.position && jsLeB position b.position then some (a, b)
      else findPair position (b :: rest)
  | _ => none

def interpChan (leftC rightC : ℤ) (factor : JsNum) : JsNum :=
  jsRoundN (jsAdd (JsNum.num (leftC : ℚ))
    (jsMul (jsSub (JsNum.num (rightC : ℚ)) (JsNum.num (leftC : ℚ))) factor))

-- The tail of getGradientColor once leftStop and rightStop are fixed.
def interp (leftStop rightStop : Stop) (position : JsNum) : RGBj :=
  let leftColor := hexToRgb leftStop.color
  let rightColor := hexToRgb rightStop.color
  let range := jsSub rightStop.position leftStop.position
  let factor :=
    if range = JsNum.num 0 then JsNum.num 0
    else jsDiv (jsSub position leftStop.position) range
  { r := interpChan leftColor.r rightColor.r factor,
    g := interpChan leftColor.g rightColor.g factor,
    b := interpChan leftColor.b rightColor.b factor }

-- getGradientColor: leftStop and rightStop default to the first and last
-- stop; the scan may override both, so the scan's hit is consumed first.
def getGradientColor (stops : List Stop) (position : JsNum) : RGBj :=
  match stops with
  | [] => { r := JsNum.num 0, g := JsNum.num 0, b := JsNum.num 0 }
  | s :: [] =>
      let c := hexToRgb s.color
      { r := JsNum.num (c.r : ℚ), g := JsNum.num (c.g : ℚ),
        b := JsNum.num (c.b : ℚ) }
  | s0 :: s1 :: rest =>
      match findPair position (s0 :: s1 :: rest) with
      | some lr => interp lr.1 lr.2 position
      | none => interp s0 ((s1 :: rest).getLast (List.cons_ne_nil s1 rest)) position

def createGradientLUT (stops : List Stop) : List RGBj :=
  (List.range 256).map
    (fun (i : ℕ) => getGradientColor stops (JsNum.num ((i : ℚ) / 255)))

def lumIndex (r g b : ℤ) : ℤ :=
  jsRound ((0.299 : ℚ) * (r : ℚ) + (0.587 : ℚ) * (g : ℚ) + (0.114 : ℚ) * (b : ℚ))

-- One pixel of the remap loop: reads data[i..i+2].  A read past the end
-- of the buffer yields undefined, the luminance becomes NaN, the LUT
-- lookup yields undefined and reading .r of undefined throws — modelled
-- as none; a lookup outside the LUT bounds throws the same way.
def pixelColor (lut : List RGBj) (data : List ℤ) (i : ℕ) : Option RGBj :=
  match data.get? i, data.get? (i + 1), data.get? (i + 2) with
  | some r, some g, some b =>
      let lum := lumIndex r g b
      if lum < 0 then none else lut.get? lum.toNat
  | _, _, _ => none

-- Writing a channel into the Uint8ClampedArray: NaN stores 0, other
-- values clamp into [0, 255].  Values written here are Math.round
-- outputs, hence integral, so the half-even tie rule of the clamped
-- conversion never fires and jsRound is exact on them.
def clampByte : JsNum → ℤ
  | JsNum.nan => 0
  | JsNum.num q => max 0 (min 255 (jsRound q))

inductive RemapResult where
  | done : List ℤ → RemapResult
  | err : List ℤ → RemapResult
deriving DecidableEq

-- for (let i = 0; i < data.length; i += 4) { ... }: err carries the
-- buffer as already mutated at the moment the throwing access happens.
def applyLoop (lut : List RGBj) (i : ℕ) (data : List ℤ) : RemapResult :=
  if h : i < data.length then
    match pixelColor lut data i with
    | none => RemapResult.err data
    | some c =>
        applyLoop lut (i + 4)
          (((data.set i (clampByte c.r)).set (i + 1) (clampByte c.g)).set
            (i + 2) (clampByte c.b))
  else RemapResult.done data
termination_by data.length - i
decreasing_by
  simp only [List.length_set]
  omega

-- applyGradientMap: besides DOM guards (no image, no canvas) it returns
-- before touching anything when gradientStops is empty; the pixel data
-- handed over by getImageData is the data argument here.
def applyGradientMap (stops : List Stop) (data : List ℤ) : RemapResult :=
  if stops.length = 0 then RemapResult.done data
  else applyLoop (createGradientLUT stops) 0 data

-- Spec-side helpers (used only to state claims).

def bwParsed : List Stop := parseColorInput "000000,FFFFFF"

-- Position lies in [0,1] (false for NaN), the property claimed of every
-- parsed stop.
def posInUnitB (p : JsNum) : Bool :=
  match p with
  | JsNum.nan => false
  | JsNum.num q => decide (0 ≤ q ∧ q ≤ 1)

-- The queried position is inside the covered range of the stop list
-- (vacuous for fewer than two stops).
def coversB (stops : List Stop) (p : ℚ) : Bool :=
  match stops with
  | s0 :: s1 :: rest =>
      jsGeB (JsNum.num p) s0.position &&
      jsLeB (JsNum.num p) (((s1 :: rest).getLast (List.cons_ne_nil s1 rest)).position)
  | _ => true

def constLUT256 : List RGBj :=
  List.replicate 256 { r := JsNum.num 0, g := JsNum.num 0, b := JsNum.num 0 }

-- ## Helper lemmas: rounding

theorem jsRound_intCast (z : ℤ) : jsRound ((z : ℚ)) = z := by
  unfold jsRound
  rw [Int.floor_eq_iff]
  constructor
  · push_cast
    linarith
  · push_cast
    linarith

theorem jsRound_le_of_le {q : ℚ} {b : ℤ} (h : q ≤ (b : ℚ)) : jsRound q ≤ b := by
  unfold jsRound
  have hlt : ⌊q + 1 / 2⌋ < b + 1 := by
    rw [Int.floor_lt]
    push_cast
    linarith
  omega

theorem le_jsRound_of_le {q : ℚ} {b : ℤ} (h : (b : ℚ) ≤ q) : b ≤ jsRound q := by
  unfold jsRound
  rw [Int.le_floor]
  linarith

theorem isNum_exists {x : JsNum} (h : isNum x = true) : ∃ q, x = JsNum.num q := by
  cases x with
  | nan => simp [isNum] at h
  | num q => exact ⟨q, rfl⟩

-- ## Helper lemmas: hexToRgb always yields byte channels

theorem hexDigitValN_le {c : Char} (h : isHexChar c = true) : hexDigitValN c ≤ 15 := by
  simp only [isHexChar, Bool.or_eq_true, Bool.and_eq_true, decide_eq_true_eq] at h
  simp only [hexDigitValN]
  split
  · omega
  · split
    · omega
    · omega

theorem hexByte_bounds {c1 c2 : Char} (h1 : isHexChar c1 = true)
    (h2 : isHexChar c2 = true) : 0 ≤ hexByte c1 c2 ∧ hexByte c1 c2 ≤ 255 := by
  have a1 := hexDigitValN_le h1
  have a2 := hexDigitValN_le h2
  unfold hexByte
  omega

theorem hexToRgbCore_bounds (cs : List Char) :
    0 ≤ (hexToRgbCore cs).r ∧ (hexToRgbCore cs).r ≤ 255 ∧
    0 ≤ (hexToRgbCore cs).g ∧ (hexToRgbCore cs).g ≤ 255 ∧
    0 ≤ (hexToRgbCore cs).b ∧ (hexToRgbCore cs).b ≤ 255 := by
  unfold hexToRgbCore
  split
  · split
    · rename_i hall
      simp only [List.all_cons, List.all_nil, Bool.and_eq_true, and_true] at hall
      obtain ⟨e1, e2, e3, e4, e5, e6⟩ := hall
      obtain ⟨p1, p2⟩ := hexByte_bounds e1 e2
      obtain ⟨p3, p4⟩ := hexByte_bounds e3 e4
      obtain ⟨p5, p6⟩ := hexByte_bounds e5 e6
      exact ⟨p1, p2, p3, p4, p5, p6⟩
    · norm_num
  · norm_num

theorem hexToRgb_bounds (s : String) :
    0 ≤ (hexToRgb s).r ∧ (hexToRgb s).r ≤ 255 ∧
    0 ≤ (hexToRgb s).g ∧ (hexToRgb s).g ≤ 255 ∧
    0 ≤ (hexToRgb s).b ∧ (hexToRgb s).b ≤ 255 :=
  hexToRgbCore_bounds _

-- ## Helper lemmas: the scan in getGradientColor

theorem findPair_mem {p : JsNum} :
    ∀ {l : List Stop} {lr : Stop × Stop}, findPair p l = some lr →
      lr.1 ∈ l ∧ lr.2 ∈ l := by
  intro l
  induction l with
  | nil => intro lr h; simp [findPair] at h
  | cons a t ih =>
    intro lr h
    cases t with
    | nil => simp [findPair] at h
    | cons b rest =>
      by_cases hc : (jsGeB p a.position && jsLeB p b.position) = true
      · rw [findPair, if_pos hc] at h
        cases h
        exact ⟨List.mem_cons_self _ _, List.mem_cons_of_mem _ (List.mem_cons_self _ _)⟩
      · rw [findPair, if_neg hc] at h
        obtain ⟨m1, m2⟩ := ih h
        exact ⟨List.mem_cons_of_mem _ m1, List.mem_cons_of_mem _ m2⟩

theorem findPair_some_spec {p : JsNum} :
    ∀ {l : List Stop} {lr : Stop × Stop}, findPair p l = some lr →
      jsGeB p lr.1.position = true ∧ jsLeB p lr.2.position = true := by
  intro l
  induction l with
  | nil => intro lr h; simp [findPair] at h
  | cons a t ih =>
    intro lr h
    cases t with
    | nil => simp [findPair] at h
    | cons b rest =>
      by_cases hc : (jsGeB p a.position && jsLeB p b.position) = true
      · rw [findPair, if_pos hc] at h
        cases h
        exact ⟨(Bool.and_eq_true _ _ |>.mp hc).1, (Bool.and_eq_true _ _ |>.mp hc).2⟩
      · rw [findPair, if_neg hc] at h
        exact ih h

theorem findPair_eq_some :
    ∀ (a b : Stop) (rest : List Stop) (p : ℚ),
      (∀ s ∈ a :: b :: rest, isNum s.position = true) →
      jsGeB (JsNum.num p) a.position = true →
      jsLeB (JsNum.num p) (((b :: rest).getLast (List.cons_ne_nil b rest)).position) = true →
      ∃ lr, findPair (JsNum.num p) (a :: b :: rest) = some lr := by
  intro a b rest
  induction rest generalizing a b with
  | nil =>
    intro p hnum hge hle
    refine ⟨(a, b), ?_⟩
    have hb : ([b].getLast (List.cons_ne_nil b [])) = b := rfl
    rw [hb] at hle
    rw [findPair, if_pos (by rw [hge, hle]; rfl)]
  | cons c t ih =>
    intro p hnum hge hle
    by_cases hc : jsLeB (JsNum.num p) b.position = true
    · exact ⟨(a, b), by rw [findPair, if_pos (by rw [hge, hc]; rfl)]⟩
    · obtain ⟨qb, hqb⟩ := isNum_exists (hnum b (by simp))
      have hgb : jsGeB (JsNum.num p) b.position = true := by
        rw [hqb] at hc ⊢
        simp only [jsLeB, decide_eq_true_eq] at hc
        simp only [jsGeB, decide_eq_true_eq]
        linarith [lt_of_not_le hc]
      have hle2 : jsLeB (JsNum.num p)
          (((c :: t).getLast (List.cons_ne_nil c t)).position) = true := by
        rw [← List.getLast_cons (List.cons_ne_nil c t)]
        exact hle
      obtain ⟨lr, hlr⟩ := ih b c p (fun s hs => hnum s (List.mem_cons_of_mem _ hs)) hgb hle2
      refine ⟨lr, ?_⟩
      rw [findPair, if_neg (by simp only [Bool.and_eq_true, not_and]; intro _ hand; exact hc hand)]
      exact hlr

theorem findPair_eq_none_left {p : JsNum} :
    ∀ {l : List Stop}, (∀ s ∈ l, jsGeB p s.position = false) →
      findPair p l = none := by
  intro l
  induction l with
  | nil => intro; rfl
  | cons a t ih =>
    intro h
    cases t with
    | nil => rfl
    | cons b rest =>
      have ha : jsGeB p a.position = false := h a (List.mem_cons_self _ _)
      rw [findPair, if_neg (by rw [ha]; simp)]
      exact ih (fun s hs => h s (List.mem_cons_of_mem _ hs))

theorem findPair_eq_none_right {p : JsNum} :
    ∀ {l : List Stop}, (∀ s ∈ l, jsLeB p s.position = false) →
      findPair p l = none := by
  intro l
  induction l with
  | nil => intro; rfl
  | cons a t ih =>
    intro h
    cases t with
    | nil => rfl
    | cons b rest =>
      have hb : jsLeB p b.position = false :=
        h b (List.mem_cons_of_mem _ (List.mem_cons_self _ _))
      rw [findPair, if_neg (by rw [hb]; simp)]
      exact ih (fun s hs => h s (List.mem_cons_of_mem _ hs))

-- ## Helper lemmas: interpolation keeps channels in byte range

theorem lerp_bounds {A B f : ℚ} (hA0 : 0 ≤ A) (hA1 : A ≤ 255) (hB0 : 0 ≤ B)
    (hB1 : B ≤ 255) (hf0 : 0 ≤ f) (hf1 : f ≤ 1) :
    0 ≤ A + (B - A) * f ∧ A + (B - A) * f ≤ 255 := by
  rcases le_total A B with h | h
  · constructor
    · nlinarith [mul_nonneg (sub_nonneg.mpr h) hf0]
    · nlinarith [mul_le_of_le_one_right (sub_nonneg.mpr h) hf1]
  · constructor
    · nlinarith [mul_le_mul_of_nonpos_left hf1 (sub_nonpos.mpr h)]
    · nlinarith [mul_nonpos_of_nonpos_of_nonneg (sub_nonpos.mpr h) hf0]

theorem interpChan_bounds {a b : ℤ} {f : ℚ} (ha0 : 0 ≤ a) (ha1 : a ≤ 255)
    (hb0 : 0 ≤ b) (hb1 : b ≤ 255) (hf0 : 0 ≤ f) (hf1 : f ≤ 1) :
    ∃ z : ℤ, interpChan a b (JsNum.num f) = JsNum.num ((z : ℤ) : ℚ) ∧
      0 ≤ z ∧ z ≤ 255 := by
  have hA0 : (0 : ℚ) ≤ (a : ℚ) := by exact_mod_cast ha0
  have hA1 : (a : ℚ) ≤ 255 := by exact_mod_cast ha1
  have hB0 : (0 : ℚ) ≤ (b : ℚ) := by exact_mod_cast hb0
  have hB1 : (b : ℚ) ≤ 255 := by exact_mod_cast hb1
  obtain ⟨hv0, hv1⟩ := lerp_bounds hA0 hA1 hB0 hB1 hf0 hf1
  refine ⟨jsRound ((a : ℚ) + ((b : ℚ) - (a : ℚ)) * f), ?_, ?_, ?_⟩
  · simp [interpChan, jsAdd, jsMul, jsSub, jsRoundN]
  · exact le_jsRound_of_le (by push_cast; linarith)
  · exact jsRound_le_of_le (by push_cast; linarith)

theorem interp_bounds {l r : Stop} {lq rq p : ℚ}
    (hl : l.position = JsNum.num lq) (hr : r.position = JsNum.num rq)
    (h1 : lq ≤ p) (h2 : p ≤ rq) :
    ∃ cr cg cb : ℤ, interp l r (JsNum.num p) =
        { r := JsNum.num ((cr : ℤ) : ℚ), g := JsNum.num ((cg : ℤ) : ℚ),
          b := JsNum.num ((cb : ℤ) : ℚ) } ∧
      0 ≤ cr ∧ cr ≤ 255 ∧ 0 ≤ cg ∧ cg ≤ 255 ∧ 0 ≤ cb ∧ cb ≤ 255 := by
  obtain ⟨lr0, lr1, lg0, lg1, lb0, lb1⟩ := hexToRgb_bounds l.color
  obtain ⟨rr0, rr1, rg0, rg1, rb0, rb1⟩ := hexToRgb_bounds r.color
  simp only [interp, hl, hr, jsSub]
  by_cases hz : rq - lq = 0
  · rw [if_pos (by rw [hz])]
    obtain ⟨zr, er, br0, br1⟩ :=
      interpChan_bounds lr0 lr1 rr0 rr1 (le_refl (0 : ℚ)) (by norm_num)
    obtain ⟨zg, eg, bg0, bg1⟩ :=
      interpChan_bounds lg0 lg1 rg0 rg1 (le_refl (0 : ℚ)) (by norm_num)
    obtain ⟨zb, eb, bb0, bb1⟩ :=
      interpChan_bounds lb0 lb1 rb0 rb1 (le_refl (0 : ℚ)) (by norm_num)
    exact ⟨zr, zg, zb, by rw [er, eg, eb], br0, br1, bg0, bg1, bb0, bb1⟩
  · rw [if_neg (by simp only [JsNum.num.injEq]; exact hz)]
    simp only [jsDiv, if_neg hz]
    have hlt : lq < rq := lt_of_le_of_ne (h1.trans h2) (fun he => hz (by rw [he, sub_self]))
    have hf0 : 0 ≤ (p - lq) / (rq - lq) := div_nonneg (by linarith) (by linarith)
    have hf1 : (p - lq) / (rq - lq) ≤ 1 := by
      rw [div_le_one (by linarith)]
      linarith
    obtain ⟨zr, er, br0, br1⟩ := interpChan_bounds lr0 lr1 rr0 rr1 hf0 hf1
    obtain ⟨zg, eg, bg0, bg1⟩ := interpChan_bounds lg0 lg1 rg0 rg1 hf0 hf1
    obtain ⟨zb, eb, bb0, bb1⟩ := interpChan_bounds lb0 lb1 rb0 rb1 hf0 hf1
    exact ⟨zr, zg, zb, by rw [er, eg, eb], br0, br1, bg0, bg1, bb0, bb1⟩

-- Every element of a pairwise-related list is the last element or is
-- related to it.
theorem pairwise_rel_getLast {α : Type} {R : α → α → Prop} :
    ∀ (l : List α) (h : l ≠ []), List.Pairwise R l →
      ∀ x ∈ l, x = l.getLast h ∨ R x (l.getLast h) := by
  intro l
  induction l with
  | nil => intro h; simp at h
  | cons a t ih =>
    intro h hp x hx
    cases t with
    | nil =>
      simp only [List.mem_singleton] at hx
      subst hx
      left
      rfl
    | cons b r =>
      rw [List.getLast_cons (List.cons_ne_nil b r)]
      rcases List.mem_cons.mp hx with rfl | hx2
      · right
        exact (List.pairwise_cons.mp hp).1 _ (List.getLast_mem _)
      · exact ih (List.cons_ne_nil b r) (List.pairwise_cons.mp hp).2 x hx2

-- ## Claim C1

/-- C1 counterexample: the stop list parsed from "111111-40,EEEEEE-60" has
two stops at positions 2/5 and 3/5; the queried position 0 lies in [0,1]
and below the first stop, yet getGradientColor returns (-425,-425,-425),
true extrapolation, not the first stop's colour (17,17,17). -/
theorem colorAt_out_of_range_cex :
    parseColorInput "111111-40,EEEEEE-60" =
      [{ color := "#111111", position := JsNum.num (2 / 5) },
       { color := "#EEEEEE", position := JsNum.num (3 / 5) }] ∧
    hexToRgb "#111111" = { r := 17, g := 17, b := 17 } ∧
    getGradientColor (parseColorInput "111111-40,EEEEEE-60") (JsNum.num 0) =
      { r := JsNum.num (-425), g := JsNum.num (-425), b := JsNum.num (-425) } ∧
    getGradientColor (parseColorInput "111111-40,EEEEEE-60") (JsNum.num 0) ≠
      { r := JsNum.num 17, g := JsNum.num 17, b := JsNum.num 17 } := by
  refine ⟨?_, ?_, ?_, ?_⟩
  · with_unfolding_all decide
  · with_unfolding_all decide
  · with_unfolding_all decide
  · with_unfolding_all decide

/-- C1 amended: for a sorted stop list of two or more numeric-position
stops and a queried position outside the covered range (below the first
stop's position or above the last stop's position), the scan finds no
pair and getGradientColor interpolates with left = stops[0] and
right = stops[last] unchanged — i.e. it applies the interpolation formula
to the two boundary stops, which is genuine linear extrapolation (and
can occur for queried positions inside [0,1] whenever the stops do not
span all of [0,1]); it yields the nearest boundary stop's colour only in
degenerate cases. -/
theorem colorAt_out_of_range_uses_default_endpoints
    (s0 s1 : Stop) (rest : List Stop) (p : ℚ)
    (hnum : ∀ s ∈ s0 :: s1 :: rest, isNum s.position = true)
    (hsorted : List.Pairwise
      (fun a b => jsCompareLe a.position b.position = true) (s0 :: s1 :: rest))
    (hout : jsGeB (JsNum.num p) s0.position = false ∨
      jsLeB (JsNum.num p)
        (((s1 :: rest).getLast (List.cons_ne_nil s1 rest)).position) = false) :
    getGradientColor (s0 :: s1 :: rest) (JsNum.num p) =
      interp s0 ((s1 :: rest).getLast (List.cons_ne_nil s1 rest)) (JsNum.num p) := by
  have hnone : findPair (JsNum.num p) (s0 :: s1 :: rest) = none := by
    rcases hout with hb | ha
    · apply findPair_eq_none_left
      intro s hs
      obtain ⟨q0, hq0⟩ := isNum_exists (hnum s0 (List.mem_cons_self _ _))
      obtain ⟨qs, hqs⟩ := isNum_exists (hnum s hs)
      rw [hq0] at hb
      simp only [jsGeB, decide_eq_false_iff_not, not_le] at hb
      rw [hqs]
      simp only [jsGeB, decide_eq_false_iff_not, not_le]
      rcases List.mem_cons.mp hs with rfl | hs2
      · rw [hq0] at hqs
        cases hqs
        exact hb
      · have hrel := (List.pairwise_cons.mp hsorted).1 s hs2
        rw [hq0, hqs] at hrel
        simp only [jsCompareLe, decide_eq_true_eq] at hrel
        linarith
    · apply findPair_eq_none_right
      intro s hs
      have hlast := pairwise_rel_getLast (s0 :: s1 :: rest) (List.cons_ne_nil s0 _)
        hsorted s hs
      rw [List.getLast_cons (List.cons_ne_nil s1 rest)] at hlast
      obtain ⟨qn, hqn⟩ := isNum_exists
        (hnum ((s1 :: rest).getLast (List.cons_ne_nil s1 rest))
          (List.mem_cons_of_mem _ (List.getLast_mem _)))
      obtain ⟨qs, hqs⟩ := isNum_exists (hnum s hs)
      rw [hqn] at ha
      simp only [jsLeB, decide_eq_false_iff_not, not_le] at ha
      rw [hqs]
      simp only [jsLeB, decide_eq_false_iff_not, not_le]
      rcases hlast with rfl | hrel
      · rw [hqn] at hqs
        cases hqs
        exact ha
      · rw [hqs, hqn] at hrel
        simp only [jsCompareLe, decide_eq_true_eq] at hrel
        linarith
  simp only [getGradientColor, hnone]

/-- C1 witness: the amended theorem applied to the parsed stops of
"111111-40,EEEEEE-60" at queried position 0. -/
theorem colorAt_out_of_range_uses_default_endpoints_witness :
    ((∀ s ∈ [({ color := "#111111", position := JsNum.num (2 / 5) } : Stop),
              { color := "#EEEEEE", position := JsNum.num (3 / 5) }],
        isNum s.position = true) ∧
     List.Pairwise (fun a b => jsCompareLe a.position b.position = true)
       [({ color := "#111111", position := JsNum.num (2 / 5) } : Stop),
        { color := "#EEEEEE", position := JsNum.num (3 / 5) }] ∧
     jsGeB (JsNum.num 0)
       ({ color := "#111111", position := JsNum.num (2 / 5) } : Stop).position
         = false) ∧
    getGradientColor
      [({ color := "#111111", position := JsNum.num (2 / 5) } : Stop),
       { color := "#EEEEEE", position := JsNum.num (3 / 5) }] (JsNum.num 0) =
      interp { color := "#111111", position := JsNum.num (2 / 5) }
        (([({ color := "#EEEEEE", position := JsNum.num (3 / 5) } : Stop)]).getLast
          (List.cons_ne_nil _ _)) (JsNum.num 0) :=
  ⟨⟨by with_unfolding_all decide, by with_unfolding_all decide,
    by with_unfolding_all decide⟩,
   colorAt_out_of_range_uses_default_endpoints _ _ [] 0
     (by with_unfolding_all decide) (by with_unfolding_all decide)
     (Or.inl (by with_unfolding_all decide))⟩

-- ## Claim C2

/-- C2 counterexample: "000000-50,FFFFFF" parses successfully to stops at
positions 1/2 and 1 with valid colours, yet at queried position 0 (inside
[0,1]) getGradientColor returns channel -255, outside [0,255]. -/
theorem colorAt_channel_out_of_byte_range_cex :
    parseColorInput "000000-50,FFFFFF" =
      [{ color := "#000000", position := JsNum.num (1 / 2) },
       { color := "#FFFFFF", position := JsNum.num 1 }] ∧
    getGradientColor (parseColorInput "000000-50,FFFFFF") (JsNum.num 0) =
      { r := JsNum.num (-255), g := JsNum.num (-255), b := JsNum.num (-255) } ∧
    ¬ (0 : ℚ) ≤ -255 := by
  refine ⟨?_, ?_, by norm_num⟩
  · with_unfolding_all decide
  · with_unfolding_all decide

/-- C2 amended: for any stop list with numeric positions and any queried
position p that is inside the covered range whenever the list has two or
more stops (below two stops any p), getGradientColor returns integer
channels, each within [0,255]. -/
theorem colorAt_in_covered_range_channels_bounded
    (stops : List Stop) (p : ℚ)
    (hnum : ∀ s ∈ stops, isNum s.position = true)
    (hcov : coversB stops p = true) :
    ∃ cr cg cb : ℤ,
      getGradientColor stops (JsNum.num p) =
        { r := JsNum.num ((cr : ℤ) : ℚ), g := JsNum.num ((cg : ℤ) : ℚ),
          b := JsNum.num ((cb : ℤ) : ℚ) } ∧
      0 ≤ cr ∧ cr ≤ 255 ∧ 0 ≤ cg ∧ cg ≤ 255 ∧ 0 ≤ cb ∧ cb ≤ 255 := by
  match stops with
  | [] =>
    refine ⟨0, 0, 0, ?_, by norm_num⟩
    simp [getGradientColor]
  | [s] =>
    obtain ⟨p1, p2, p3, p4, p5, p6⟩ := hexToRgb_bounds s.color
    exact ⟨(hexToRgb s.color).r, (hexToRgb s.color).g, (hexToRgb s.color).b,
      by simp [getGradientColor], p1, p2, p3, p4, p5, p6⟩
  | s0 :: s1 :: rest =>
    simp only [coversB, Bool.and_eq_true] at hcov
    obtain ⟨hge, hle⟩ := hcov
    obtain ⟨lr, hlr⟩ := findPair_eq_some s0 s1 rest p hnum hge hle
    obtain ⟨hm1, hm2⟩ := findPair_mem hlr
    obtain ⟨hs1, hs2⟩ := findPair_some_spec hlr
    obtain ⟨lq, hlq⟩ := isNum_exists (hnum lr.1 hm1)
    obtain ⟨rq, hrq⟩ := isNum_exists (hnum lr.2 hm2)
    rw [hlq] at hs1
    simp only [jsGeB, decide_eq_true_eq] at hs1
    rw [hrq] at hs2
    simp only [jsLeB, decide_eq_true_eq] at hs2
    obtain ⟨cr, cg, cb, heq, hb⟩ := interp_bounds hlq hrq hs1 hs2
    refine ⟨cr, cg, cb, ?_, hb⟩
    simp only [getGradientColor, hlr]
    exact heq

/-- C2 witness: the amended theorem applied to the two-stop red-to-blue
gradient at queried position 1/2. -/
theorem colorAt_in_covered_range_channels_bounded_witness :
    ((∀ s ∈ [({ color := "#FF0000", position := JsNum.num 0 } : Stop),
              { color := "#0000FF", position := JsNum.num 1 }],
        isNum s.position = true) ∧
     coversB [({ color := "#FF0000", position := JsNum.num 0 } : Stop),
              { color := "#0000FF", position := JsNum.num 1 }] (1 / 2) = true) ∧
    ∃ cr cg cb : ℤ,
      getGradientColor
        [({ color := "#FF0000", position := JsNum.num 0 } : Stop),
         { color := "#0000FF", position := JsNum.num 1 }] (JsNum.num (1 / 2)) =
        { r := JsNum.num ((cr : ℤ) : ℚ), g := JsNum.num ((cg : ℤ) : ℚ),
          b := JsNum.num ((cb : ℤ) : ℚ) } ∧
      0 ≤ cr ∧ cr ≤ 255 ∧ 0 ≤ cg ∧ cg ≤ 255 ∧ 0 ≤ cb ∧ cb ≤ 255 :=
  ⟨⟨by with_unfolding_all decide, by with_unfolding_all decide⟩,
   colorAt_in_covered_range_channels_bounded _ (1 / 2)
     (by with_unfolding_all decide) (by with_unfolding_all decide)⟩

-- ## Helper lemmas: the stable insertion sort modelling Array.prototype.sort

theorem mem_ordIns {x a : Stop} :
    ∀ {l : List Stop}, x ∈ ordIns a l ↔ x = a ∨ x ∈ l := by
  intro l
  induction l with
  | nil => simp [ordIns]
  | cons b t ih =>
    by_cases hc : jsCompareLe a.position b.position = true
    · simp only [ordIns, if_pos hc, List.mem_cons]
    · simp only [ordIns, if_neg hc, List.mem_cons, ih]
      tauto

theorem mem_sortStops {x : Stop} :
    ∀ {l : List Stop}, x ∈ sortStops l ↔ x ∈ l := by
  intro l
  induction l with
  | nil => simp [sortStops]
  | cons a t ih => simp [sortStops, mem_ordIns, ih]

theorem pairwise_ordIns {a : Stop} :
    ∀ {l : List Stop}, isNum a.position = true →
      (∀ s ∈ l, isNum s.position = true) →
      List.Pairwise (fun x y => jsCompareLe x.position y.position = true) l →
      List.Pairwise (fun x y => jsCompareLe x.position y.position = true)
        (ordIns a l) := by
  intro l
  induction l with
  | nil =>
    intro _ _ _
    simp [ordIns]
  | cons b t ih =>
    intro ha hl hp
    obtain ⟨qa, hqa⟩ := isNum_exists ha
    obtain ⟨qb, hqb⟩ := isNum_exists (hl b (List.mem_cons_self _ _))
    by_cases hc : jsCompareLe a.position b.position = true
    · simp only [ordIns, if_pos hc]
      refine List.pairwise_cons.mpr ⟨?_, hp⟩
      intro s hs
      rcases List.mem_cons.mp hs with rfl | hs2
      · exact hc
      · have hrel := (List.pairwise_cons.mp hp).1 s hs2
        obtain ⟨qs, hqs⟩ := isNum_exists (hl s (List.mem_cons_of_mem _ hs2))
        rw [hqa, hqb] at hc
        rw [hqb, hqs] at hrel
        rw [hqa, hqs]
        simp only [jsCompareLe, decide_eq_true_eq] at hc hrel ⊢
        linarith
    · simp only [ordIns, if_neg hc]
      have hpt := (List.pairwise_cons.mp hp).2
      refine List.pairwise_cons.mpr
        ⟨?_, ih ha (fun s hs => hl s (List.mem_cons_of_mem _ hs)) hpt⟩
      intro s hs
      rcases mem_ordIns.mp hs with rfl | hs2
      · rw [hqa, hqb] at hc
        rw [hqb, hqa]
        simp only [jsCompareLe, decide_eq_true_eq] at hc ⊢
        linarith [lt_of_not_le hc]
      · exact (List.pairwise_cons.mp hp).1 s hs2

theorem pairwise_sortStops :
    ∀ {l : List Stop}, (∀ s ∈ l, isNum s.position = true) →
      List.Pairwise (fun x y => jsCompareLe x.position y.position = true)
        (sortStops l) := by
  intro l
  induction l with
  | nil =>
    intro _
    simp [sortStops]
  | cons a t ih =>
    intro h
    simp only [sortStops]
    exact pairwise_ordIns (h a (List.mem_cons_self _ _))
      (fun s hs => h s (List.mem_cons_of_mem _ (mem_sortStops.mp hs)))
      (ih (fun s hs => h s (List.mem_cons_of_mem _ hs)))

-- Stability of the insertion sort: filtering by any key that forces
-- comparator ties commutes with sorting.
theorem filter_ordIns (a : Stop) (P : Stop → Bool)
    (hP : ∀ x y : Stop, P x = true → P y = true →
      jsCompareLe x.position y.position = true) :
    ∀ (l : List Stop),
      (ordIns a l).filter P = if P a then a :: l.filter P else l.filter P := by
  intro l
  induction l with
  | nil => simp [ordIns, List.filter_cons]
  | cons b t ih =>
    by_cases hc : jsCompareLe a.position b.position = true
    · simp only [ordIns, if_pos hc, List.filter_cons]
    · simp only [ordIns, if_neg hc, List.filter_cons]
      by_cases hPa : P a
      · by_cases hPb : P b
        · exact absurd (hP a b (by rw [hPa]) (by rw [hPb])) hc
        · simp [hPa, hPb, ih]
      · by_cases hPb : P b
        · simp [hPa, hPb, ih]
        · simp [hPa, hPb, ih]

theorem filter_sortStops (P : Stop → Bool)
    (hP : ∀ x y : Stop, P x = true → P y = true →
      jsCompareLe x.position y.position = true) :
    ∀ (l : List Stop), (sortStops l).filter P = l.filter P := by
  intro l
  induction l with
  | nil => rfl
  | cons a t ih =>
    simp only [sortStops]
    rw [filter_ordIns a P hP (sortStops t), ih, List.filter_cons]

-- ## Helper lemmas: shape of parsed stops

theorem processToken_position {total index : ℕ} {color : String} {s : Stop}
    (h : processToken total index color = some s) :
    ∃ p0, s.position = jsClamp01 p0 := by
  simp only [processToken] at h
  split at h
  · cases h
    exact ⟨_, rfl⟩
  · cases h

theorem clamp_cases (p0 : JsNum) :
    jsClamp01 p0 = JsNum.nan ∨
    ∃ q, jsClamp01 p0 = JsNum.num q ∧ 0 ≤ q ∧ q ≤ 1 := by
  cases p0 with
  | nan => exact Or.inl rfl
  | num q =>
    refine Or.inr ⟨max 0 (min 1 q), rfl, le_max_left _ _, ?_⟩
    apply max_le
    · norm_num
    · exact min_le_left _ _

theorem get?_mem_enumFrom {α : Type} :
    ∀ (l : List α) (n i : ℕ) (a : α), l.get? i = some a →
      (n + i, a) ∈ l.enumFrom n := by
  intro l
  induction l with
  | nil =>
    intro n i a h
    simp at h
  | cons b t ih =>
    intro n i a h
    cases i with
    | zero =>
      simp only [List.get?] at h
      cases h
      simp [List.enumFrom]
    | succ j =>
      simp only [List.get?] at h
      have hmem := ih (n + 1) j a h
      have heq : n + (j + 1) = (n + 1) + j := by omega
      simp only [List.enumFrom]
      rw [heq]
      exact List.mem_cons_of_mem _ hmem

theorem get?_mem_enum {α : Type} (l : List α) (i : ℕ) (a : α)
    (h : l.get? i = some a) : (i, a) ∈ l.enum := by
  have hmem := get?_mem_enumFrom l 0 i a h
  simpa [List.enum] using hmem

theorem enumFrom_mem_get? {α : Type} :
    ∀ (l : List α) (n i : ℕ) (a : α), (i, a) ∈ l.enumFrom n →
      n ≤ i ∧ l.get? (i - n) = some a := by
  intro l
  induction l with
  | nil =>
    intro n i a h
    simp [List.enumFrom] at h
  | cons b t ih =>
    intro n i a h
    simp only [List.enumFrom, List.mem_cons] at h
    rcases h with h | h
    · obtain ⟨h1, h2⟩ := Prod.mk.injEq .. ▸ h
      cases h1
      cases h2
      exact ⟨le_refl _, by simp⟩
    · obtain ⟨hle, hget⟩ := ih (n + 1) i a h
      refine ⟨by omega, ?_⟩
      have hstep : i - n = (i - (n + 1)) + 1 := by omega
      rw [hstep]
      simpa using hget

theorem enum_mem_get? {α : Type} (l : List α) (i : ℕ) (a : α)
    (h : (i, a) ∈ l.enum) : l.get? i = some a := by
  have hmem : (i, a) ∈ l.enumFrom 0 := by simpa [List.enum] using h
  have hres := enumFrom_mem_get? l 0 i a hmem
  simpa using hres.2

-- Characterization of NaN positions: a kept stop's position is NaN
-- exactly when its token had a hyphen whose explicit-position suffix
-- fails parseInt.
theorem processToken_nan_iff {total index : ℕ} {tok : String} {s : Stop}
    (h : processToken total index tok = some s) :
    s.position = JsNum.nan ↔
      hasHyphen (jsUpper (jsTrim tok)) = true ∧
      jsParseInt (((splitHyphen (jsUpper (jsTrim tok))).get? 1).getD "") = none := by
  simp only [processToken] at h
  split at h
  · cases h
    by_cases hh : hasHyphen (jsUpper (jsTrim tok)) = true
    · have hep : explicitPos (jsUpper (jsTrim tok)) =
          some (match jsParseInt
                  (((splitHyphen (jsUpper (jsTrim tok))).get? 1).getD "") with
                | some n => JsNum.num ((n : ℚ) / 100)
                | none => JsNum.nan) := by
        simp [explicitPos, hh]
      cases hpi : jsParseInt (((splitHyphen (jsUpper (jsTrim tok))).get? 1).getD "") with
      | none =>
        simp only [hep, hpi]
        simp [jsClamp01, jsMin1, jsMax0, hh]
      | some n =>
        simp only [hep, hpi]
        simp [jsClamp01, jsMin1, jsMax0, hpi]
    · have hep : explicitPos (jsUpper (jsTrim tok)) = none := by
        simp [explicitPos, hh]
      simp only [hep]
      by_cases ht : 1 < total
      · simp [ht, jsClamp01, jsMin1, jsMax0, hh]
      · simp [ht, jsClamp01, jsMin1, jsMax0, hh]
  · cases h

-- ## Claim C5

/-- C5 counterexample: parsing "FF0000-" keeps the stop (parseInt of the
empty explicit-position suffix is NaN, which survives the clamp), so the
returned stop's position is NaN, not a value in [0,1]. -/
theorem parse_nan_position_cex :
    parseColorInput "FF0000-" =
      [{ color := "#FF0000", position := JsNum.nan }] ∧
    posInUnitB JsNum.nan = false :=
  ⟨by with_unfolding_all decide, rfl⟩

/-- C5 amended: for every input string, every parsed stop's position is
either NaN (exactly when the token had a hyphen suffix whose parseInt
fails, e.g. "FF0000-") or a rational clamped into [0,1]; whenever no NaN
position occurs the list is additionally sorted ascending by position and
the sort is stable (filtering by any position key commutes with it). -/
theorem parse_positions_clamped_sorted_stable (input : String) :
    (∀ s ∈ parseColorInput input,
        s.position = JsNum.nan ∨
        ∃ q : ℚ, s.position = JsNum.num q ∧ 0 ≤ q ∧ q ≤ 1) ∧
    (∀ s ∈ parseColorInput input, ∃ i tok,
        (jsTokens input).get? i = some tok ∧
        processToken (jsTokens input).length i tok = some s ∧
        (s.position = JsNum.nan ↔
          hasHyphen (jsUpper (jsTrim tok)) = true ∧
          jsParseInt
            (((splitHyphen (jsUpper (jsTrim tok))).get? 1).getD "") = none)) ∧
    ((∀ s ∈ preStops input, isNum s.position = true) →
      List.Pairwise (fun a b => jsCompareLe a.position b.position = true)
        (parseColorInput input) ∧
      ∀ q : ℚ,
        (parseColorInput input).filter
          (fun s => decide (s.position = JsNum.num q)) =
        (preStops input).filter
          (fun s => decide (s.position = JsNum.num q))) := by
  refine ⟨?_, ?_, ?_⟩
  · intro s hs
    have hs2 : s ∈ preStops input := mem_sortStops.mp hs
    simp only [preStops] at hs2
    obtain ⟨a, _, ha⟩ := List.mem_filterMap.mp hs2
    obtain ⟨p0, hp0⟩ := processToken_position ha
    rcases clamp_cases p0 with hnan | ⟨q, hq, h0, h1⟩
    · exact Or.inl (by rw [hp0, hnan])
    · exact Or.inr ⟨q, by rw [hp0, hq], h0, h1⟩
  · intro s hs
    have hs2 : s ∈ preStops input := mem_sortStops.mp hs
    simp only [preStops] at hs2
    obtain ⟨a, hmem, ha⟩ := List.mem_filterMap.mp hs2
    obtain ⟨i, tok⟩ := a
    have htok : (jsTokens input).get? i = some tok := enum_mem_get? _ _ _ hmem
    exact ⟨i, tok, htok, ha, processToken_nan_iff ha⟩
  · intro h
    constructor
    · simp only [parseColorInput]
      exact pairwise_sortStops h
    · intro q
      simp only [parseColorInput]
      apply filter_sortStops
      intro x y hx hy
      simp only [decide_eq_true_eq] at hx hy
      rw [hx, hy]
      simp [jsCompareLe]

/-- C5 witness: the theorem applied to "FF0000-,00FF00" (one NaN stop from
the failing parseInt, one numeric stop) and, for the conditional
sorted-and-stable part, to "FF0000-20,0000FF" whose positions are all
numeric. -/
theorem parse_positions_clamped_sorted_stable_witness :
    (∀ s ∈ parseColorInput "FF0000-,00FF00",
        s.position = JsNum.nan ∨
        ∃ q : ℚ, s.position = JsNum.num q ∧ 0 ≤ q ∧ q ≤ 1) ∧
    (∀ s ∈ parseColorInput "FF0000-,00FF00", ∃ i tok,
        (jsTokens "FF0000-,00FF00").get? i = some tok ∧
        processToken (jsTokens "FF0000-,00FF00").length i tok = some s ∧
        (s.position = JsNum.nan ↔
          hasHyphen (jsUpper (jsTrim tok)) = true ∧
          jsParseInt
            (((splitHyphen (jsUpper (jsTrim tok))).get? 1).getD "") = none)) ∧
    (∀ s ∈ preStops "FF0000-20,0000FF", isNum s.position = true) ∧
    (List.Pairwise (fun a b => jsCompareLe a.position b.position = true)
       (parseColorInput "FF0000-20,0000FF") ∧
     ∀ q : ℚ,
       (parseColorInput "FF0000-20,0000FF").filter
         (fun s => decide (s.position = JsNum.num q)) =
       (preStops "FF0000-20,0000FF").filter
         (fun s => decide (s.position = JsNum.num q))) :=
  ⟨(parse_positions_clamped_sorted_stable "FF0000-,00FF00").1,
   (parse_positions_clamped_sorted_stable "FF0000-,00FF00").2.1,
   by with_unfolding_all decide,
   (parse_positions_clamped_sorted_stable "FF0000-20,0000FF").2.2
     (by with_unfolding_all decide)⟩

-- ## Claim C3

/-- C3 counterexample: in "ZZZZZZ,FF0000" the valid-token count is 1
(ZZZZZZ is dropped), so the claim's N = 1 rule predicts position 0 for
FF0000; the code divides by the total token count and assigns
index / (total - 1) = 1 / 1 = 1. -/
theorem parse_spacing_valid_count_cex :
    parseColorInput "ZZZZZZ,FF0000" =
      [{ color := "#FF0000", position := JsNum.num 1 }] ∧
    JsNum.num (1 : ℚ) ≠ JsNum.num 0 :=
  ⟨by with_unfolding_all decide, by with_unfolding_all decide⟩

/-- C3 amended: for every token that is valid and carries no explicit
position, with N the total token count of the split list (invalid tokens
included, and consuming their index), the parsed list contains the stop
whose position is index / (N - 1) when N is greater than 1, and 0 when
N equals 1. -/
theorem parse_even_spacing_uses_total_token_count
    (input : String) (i : ℕ) (tok : String)
    (htok : (jsTokens input).get? i = some tok)
    (hno : hasHyphen (jsUpper (jsTrim tok)) = false)
    (hval : testHex6 (withHash (jsUpper (jsTrim tok))) = true) :
    ({ color := withHash (jsUpper (jsTrim tok)),
       position := JsNum.num
         (if 1 < (jsTokens input).length
          then (i : ℚ) / (((jsTokens input).length : ℚ) - 1)
          else 0) } : Stop) ∈ parseColorInput input := by
  have hi : i < (jsTokens input).length := by
    by_contra hcon
    rw [List.get?_eq_none.mpr (le_of_not_lt hcon)] at htok
    simp at htok
  have hpt : processToken (jsTokens input).length i tok =
      some { color := withHash (jsUpper (jsTrim tok)),
             position := JsNum.num
               (if 1 < (jsTokens input).length
                then (i : ℚ) / (((jsTokens input).length : ℚ) - 1)
                else 0) } := by
    have hcp : colorPart (jsUpper (jsTrim tok)) = jsUpper (jsTrim tok) := by
      simp [colorPart, hno]
    have hep : explicitPos (jsUpper (jsTrim tok)) = none := by
      simp [explicitPos, hno]
    simp only [processToken, hcp, hep, hval, if_true]
    by_cases ht : 1 < (jsTokens input).length
    · have hpos : (0 : ℚ) ≤ (i : ℚ) / (((jsTokens input).length : ℚ) - 1) := by
        apply div_nonneg
        · exact Nat.cast_nonneg i
        · have : (1 : ℚ) < ((jsTokens input).length : ℚ) := by exact_mod_cast ht
          linarith
      have hle1 : (i : ℚ) / (((jsTokens input).length : ℚ) - 1) ≤ 1 := by
        have hlt : (1 : ℚ) < ((jsTokens input).length : ℚ) := by exact_mod_cast ht
        rw [div_le_one (by linarith)]
        have : (i : ℚ) + 1 ≤ ((jsTokens input).length : ℚ) := by exact_mod_cast hi
        linarith
      simp only [ht, if_true]
      simp [jsClamp01, jsMin1, jsMax0, min_eq_right hle1, max_eq_right hpos]
    · simp only [ht, if_false]
      simp [jsClamp01, jsMin1, jsMax0]
  simp only [parseColorInput]
  apply mem_sortStops.mpr
  simp only [preStops]
  exact List.mem_filterMap.mpr ⟨(i, tok), get?_mem_enum _ _ _ htok, hpt⟩

/-- C3 witness: the amended theorem at input "ZZZZZZ,FF0000", token index
1: the total token count is 2, so FF0000 is placed at 1 / (2 - 1) = 1. -/
theorem parse_even_spacing_uses_total_token_count_witness :
    ((jsTokens "ZZZZZZ,FF0000").get? 1 = some "FF0000" ∧
     hasHyphen (jsUpper (jsTrim "FF0000")) = false ∧
     testHex6 (withHash (jsUpper (jsTrim "FF0000"))) = true) ∧
    ({ color := withHash (jsUpper (jsTrim "FF0000")),
       position := JsNum.num
         (if 1 < (jsTokens "ZZZZZZ,FF0000").length
          then ((1 : ℕ) : ℚ) / (((jsTokens "ZZZZZZ,FF0000").length : ℚ) - 1)
          else 0) } : Stop) ∈ parseColorInput "ZZZZZZ,FF0000" :=
  ⟨⟨by with_unfolding_all decide, by with_unfolding_all decide,
    by with_unfolding_all decide⟩,
   parse_even_spacing_uses_total_token_count _ 1 _
     (by with_unfolding_all decide) (by with_unfolding_all decide)
     (by with_unfolding_all decide)⟩

-- ## Claim C8

/-- C8: the three worked parsing examples. "FF0000,00FF00,0000FF" gives
three stops at 0, 1/2, 1 coloured red, green, blue in that order;
"FF0000-20,0000FF-80" gives stops at 20/100 and 80/100 in that order;
"ZZZZZZ" gives the empty list. -/
theorem parse_worked_examples :
    parseColorInput "FF0000,00FF00,0000FF" =
      [{ color := "#FF0000", position := JsNum.num 0 },
       { color := "#00FF00", position := JsNum.num (1 / 2) },
       { color := "#0000FF", position := JsNum.num 1 }] ∧
    parseColorInput "FF0000-20,0000FF-80" =
      [{ color := "#FF0000", position := JsNum.num (20 / 100) },
       { color := "#0000FF", position := JsNum.num (80 / 100) }] ∧
    parseColorInput "ZZZZZZ" = [] := by
  refine ⟨?_, ?_, ?_⟩
  · with_unfolding_all decide
  · with_unfolding_all decide
  · with_unfolding_all decide

-- ## Helper lemmas: luminance bounds

theorem lumIndex_bounds {r g b : ℤ} (hr0 : 0 ≤ r) (hr1 : r ≤ 255)
    (hg0 : 0 ≤ g) (hg1 : g ≤ 255) (hb0 : 0 ≤ b) (hb1 : b ≤ 255) :
    0 ≤ lumIndex r g b ∧ lumIndex r g b ≤ 255 := by
  have hR0 : (0 : ℚ) ≤ (r : ℚ) := by exact_mod_cast hr0
  have hR1 : (r : ℚ) ≤ 255 := by exact_mod_cast hr1
  have hG0 : (0 : ℚ) ≤ (g : ℚ) := by exact_mod_cast hg0
  have hG1 : (g : ℚ) ≤ 255 := by exact_mod_cast hg1
  have hB0 : (0 : ℚ) ≤ (b : ℚ) := by exact_mod_cast hb0
  have hB1 : (b : ℚ) ≤ 255 := by exact_mod_cast hb1
  constructor
  · apply le_jsRound_of_le
    push_cast
    nlinarith
  · apply jsRound_le_of_le
    push_cast
    nlinarith

theorem clampByte_bounds (v : JsNum) : 0 ≤ clampByte v ∧ clampByte v ≤ 255 := by
  cases v with
  | nan => norm_num [clampByte]
  | num q =>
    simp only [clampByte]
    exact ⟨le_max_left _ _, max_le (by norm_num) (min_le_left _ _)⟩

-- ## Claim C7

/-- C7: for byte channels r, g, b the luminance index
round(0.299 r + 0.587 g + 0.114 b) lies in [0,255], so the lookup in any
256-entry LUT is in bounds and never accesses outside the table. -/
theorem luminance_index_in_bounds (r g b : ℤ)
    (h : 0 ≤ r ∧ r ≤ 255 ∧ 0 ≤ g ∧ g ≤ 255 ∧ 0 ≤ b ∧ b ≤ 255) :
    0 ≤ lumIndex r g b ∧ lumIndex r g b ≤ 255 ∧
    ∀ lut : List RGBj, lut.length = 256 →
      (lut.get? (lumIndex r g b).toNat).isSome = true := by
  obtain ⟨hr0, hr1, hg0, hg1, hb0, hb1⟩ := h
  obtain ⟨l0, l1⟩ := lumIndex_bounds hr0 hr1 hg0 hg1 hb0 hb1
  refine ⟨l0, l1, ?_⟩
  intro lut hlen
  have hlt : (lumIndex r g b).toNat < lut.length := by
    rw [hlen]
    omega
  rw [List.get?_eq_get hlt]
  rfl

/-- C7 witness: the theorem applied at channels (10, 200, 30) and a
concrete 256-entry LUT. -/
theorem luminance_index_in_bounds_witness :
    ((0 : ℤ) ≤ 10 ∧ (10 : ℤ) ≤ 255 ∧ (0 : ℤ) ≤ 200 ∧ (200 : ℤ) ≤ 255 ∧
     (0 : ℤ) ≤ 30 ∧ (30 : ℤ) ≤ 255) ∧
    constLUT256.length = 256 ∧
    (constLUT256.get? (lumIndex 10 200 30).toNat).isSome = true :=
  ⟨by norm_num, by with_unfolding_all decide,
   (luminance_index_in_bounds 10 200 30 (by norm_num)).2.2 constLUT256
     (by with_unfolding_all decide)⟩

-- ## Claim C6

theorem applyLoop_alpha (lut : List RGBj) (hlut : lut.length = 256) :
    ∀ (n i : ℕ) (data : List ℤ),
      data.length - i = n → i % 4 = 0 → data.length % 4 = 0 →
      (∀ x ∈ data, 0 ≤ x ∧ x ≤ 255) →
      ∃ out, applyLoop lut i data = RemapResult.done out ∧
        out.length = data.length ∧
        ∀ j, j % 4 = 3 → out.get? j = data.get? j := by
  intro n
  induction n using Nat.strong_induction_on with
  | _ n ih =>
    intro i data hn hi h4 hbytes
    by_cases hlt : i < data.length
    · have hi4 : i + 4 ≤ data.length := by omega
      obtain ⟨r, hr⟩ : ∃ r, data.get? i = some r := by
        cases he : data.get? i with
        | none => rw [List.get?_eq_none] at he; omega
        | some r => exact ⟨r, rfl⟩
      obtain ⟨g, hg⟩ : ∃ g, data.get? (i + 1) = some g := by
        cases he : data.get? (i + 1) with
        | none => rw [List.get?_eq_none] at he; omega
        | some g => exact ⟨g, rfl⟩
      obtain ⟨b, hb⟩ : ∃ b, data.get? (i + 2) = some b := by
        cases he : data.get? (i + 2) with
        | none => rw [List.get?_eq_none] at he; omega
        | some b => exact ⟨b, rfl⟩
      obtain ⟨hrb0, hrb1⟩ := hbytes r (List.get?_mem hr)
      obtain ⟨hgb0, hgb1⟩ := hbytes g (List.get?_mem hg)
      obtain ⟨hbb0, hbb1⟩ := hbytes b (List.get?_mem hb)
      obtain ⟨l0, l1⟩ := lumIndex_bounds hrb0 hrb1 hgb0 hgb1 hbb0 hbb1
      have hltlut : (lumIndex r g b).toNat < lut.length := by
        rw [hlut]
        omega
      have hpc : pixelColor lut data i = some (lut.get ⟨(lumIndex r g b).toNat, hltlut⟩) := by
        simp only [pixelColor, hr, hg, hb]
        rw [if_neg (by omega)]
        exact List.get?_eq_get hltlut
      rw [applyLoop, dif_pos hlt]
      simp only [hpc]
      set c := lut.get ⟨(lumIndex r g b).toNat, hltlut⟩ with hc
      set data2 := ((data.set i (clampByte c.r)).set (i + 1) (clampByte c.g)).set
        (i + 2) (clampByte c.b) with hdata2
      have hlen2 : data2.length = data.length := by
        rw [hdata2]
        simp [List.length_set]
      have hbytes2 : ∀ x ∈ data2, 0 ≤ x ∧ x ≤ 255 := by
        intro x hx
        rw [hdata2] at hx
        rcases List.mem_or_eq_of_mem_set hx with hx2 | rfl
        · rcases List.mem_or_eq_of_mem_set hx2 with hx3 | rfl
          · rcases List.mem_or_eq_of_mem_set hx3 with hx4 | rfl
            · exact hbytes x hx4
            · exact clampByte_bounds _
          · exact clampByte_bounds _
        · exact clampByte_bounds _
      obtain ⟨out, hout, houtlen, halpha⟩ :=
        ih (data.length - (i + 4)) (by omega) (i + 4) data2
          (by rw [hlen2]) (by omega) (by rw [hlen2]; exact h4) hbytes2
      refine ⟨out, hout, by rw [houtlen, hlen2], ?_⟩
      intro j hj
      rw [halpha j hj, hdata2]
      rw [List.get?_set_ne _ _ (by omega : i + 2 ≠ j)]
      rw [List.get?_set_ne _ _ (by omega : i + 1 ≠ j)]
      rw [List.get?_set_ne _ _ (by omega : i ≠ j)]
    · rw [applyLoop, dif_neg hlt]
      exact ⟨data, rfl, rfl, fun j hj => rfl⟩

/-- C6: remapping an RGBA byte buffer through a 256-entry LUT succeeds
and leaves the alpha channel (every byte at index 3 mod 4) exactly as in
the input; only bytes 0-2 of each pixel are rewritten. -/
theorem remap_preserves_alpha (data : List ℤ) (lut : List RGBj)
    (h4 : data.length % 4 = 0)
    (hbytes : ∀ x ∈ data, 0 ≤ x ∧ x ≤ 255)
    (hlut : lut.length = 256) :
    ∃ out, applyLoop lut 0 data = RemapResult.done out ∧
      out.length = data.length ∧
      ∀ j, j % 4 = 3 → out.get? j = data.get? j :=
  applyLoop_alpha lut hlut (data.length - 0) 0 data rfl (by norm_num) h4 hbytes

/-- C6 witness: the theorem applied to the one-pixel buffer (1,2,3,9) and
a concrete 256-entry LUT. -/
theorem remap_preserves_alpha_witness :
    (([1, 2, 3, 9] : List ℤ).length % 4 = 0 ∧
     (∀ x ∈ ([1, 2, 3, 9] : List ℤ), 0 ≤ x ∧ x ≤ 255) ∧
     constLUT256.length = 256) ∧
    ∃ out, applyLoop constLUT256 0 [1, 2, 3, 9] = RemapResult.done out ∧
      out.length = ([1, 2, 3, 9] : List ℤ).length ∧
      ∀ j, j % 4 = 3 → out.get? j = ([1, 2, 3, 9] : List ℤ).get? j :=
  ⟨⟨by norm_num, by with_unfolding_all decide, by with_unfolding_all decide⟩,
   remap_preserves_alpha [1, 2, 3, 9] constLUT256 (by norm_num)
     (by with_unfolding_all decide) (by with_unfolding_all decide)⟩

-- ## Helper lemmas: the black-to-white gradient is the identity LUT

theorem bwParsed_eq :
    bwParsed = [{ color := "#000000", position := JsNum.num 0 },
                { color := "#FFFFFF", position := JsNum.num 1 }] := by
  with_unfolding_all decide

theorem hexToRgb_black : hexToRgb "#000000" = { r := 0, g := 0, b := 0 } := by
  with_unfolding_all decide

theorem hexToRgb_white : hexToRgb "#FFFFFF" = { r := 255, g := 255, b := 255 } := by
  with_unfolding_all decide

theorem interpChan_zero_255 (q : ℚ) :
    interpChan 0 255 (JsNum.num q) = JsNum.num ((jsRound (255 * q) : ℤ) : ℚ) := by
  simp only [interpChan, jsAdd, jsMul, jsSub, jsRoundN]
  norm_num

theorem createGradientLUT_bw (v : ℕ) (hv : v < 256) :
    (createGradientLUT bwParsed).get? v =
      some { r := JsNum.num ((v : ℕ) : ℚ), g := JsNum.num ((v : ℕ) : ℚ),
             b := JsNum.num ((v : ℕ) : ℚ) } := by
  have hq0 : (0 : ℚ) ≤ (v : ℚ) / 255 := div_nonneg (Nat.cast_nonneg v) (by norm_num)
  have hq1 : (v : ℚ) / 255 ≤ 1 := by
    rw [div_le_one (by norm_num)]
    exact_mod_cast Nat.lt_succ_iff.mp hv
  simp only [createGradientLUT]
  rw [List.get?_map, List.get?_range hv]
  simp only [Option.map_some']
  rw [bwParsed_eq]
  have hfp : findPair (JsNum.num ((v : ℚ) / 255))
      [({ color := "#000000", position := JsNum.num 0 } : Stop),
       { color := "#FFFFFF", position := JsNum.num 1 }] =
      some ({ color := "#000000", position := JsNum.num 0 },
            { color := "#FFFFFF", position := JsNum.num 1 }) := by
    rw [findPair, if_pos]
    simp only [jsGeB, jsLeB, Bool.and_eq_true, decide_eq_true_eq]
    exact ⟨hq0, hq1⟩
  simp only [getGradientColor, hfp]
  simp only [interp, hexToRgb_black, hexToRgb_white, jsSub]
  rw [if_neg (by simp)]
  simp only [jsDiv]
  rw [if_neg (by norm_num)]
  have hdiv : ((v : ℚ) / 255 - 0) / (1 - 0) = (v : ℚ) / 255 := by
    norm_num
  rw [hdiv]
  rw [interpChan_zero_255]
  have hmul : (255 : ℚ) * ((v : ℚ) / 255) = ((v : ℤ) : ℚ) := by
    push_cast
    field_simp
  rw [hmul, jsRound_intCast]
  norm_num

theorem bwLUT_get_int (v : ℤ) (h0 : 0 ≤ v) (h1 : v ≤ 255) :
    (createGradientLUT bwParsed).get? v.toNat =
      some { r := JsNum.num (v : ℚ), g := JsNum.num (v : ℚ),
             b := JsNum.num (v : ℚ) } := by
  have h := createGradientLUT_bw v.toNat (by omega)
  rw [h]
  have hc : ((v.toNat : ℕ) : ℚ) = (v : ℚ) := by
    exact_mod_cast Int.toNat_of_nonneg h0
  rw [hc]

theorem lumIndex_diag (v : ℤ) : lumIndex v v v = v := by
  unfold lumIndex
  rw [show (0.299 : ℚ) * (v : ℚ) + 0.587 * (v : ℚ) + 0.114 * (v : ℚ)
      = ((0.299 : ℚ) + 0.587 + 0.114) * (v : ℚ) by ring]
  rw [show (0.299 : ℚ) + 0.587 + 0.114 = 1 by norm_num]
  rw [one_mul, jsRound_intCast]

theorem clampByte_int {v : ℤ} (h0 : 0 ≤ v) (h1 : v ≤ 255) :
    clampByte (JsNum.num (v : ℚ)) = v := by
  simp only [clampByte, jsRound_intCast]
  omega

theorem set_get?_same :
    ∀ (l : List ℤ) (i : ℕ) (a : ℤ), l.get? i = some a → l.set i a = l := by
  intro l
  induction l with
  | nil =>
    intro i a h
    simp at h
  | cons b t ih =>
    intro i a h
    cases i with
    | zero =>
      simp only [List.get?] at h
      cases h
      rfl
    | succ j =>
      simp only [List.get?] at h
      simp [List.set, ih j a h]

theorem applyLoop_bw_gray :
    ∀ (n i : ℕ) (data : List ℤ),
      data.length - i = n → i % 4 = 0 → data.length % 4 = 0 →
      (∀ x ∈ data, 0 ≤ x ∧ x ≤ 255) →
      (∀ k, 4 * k + 2 < data.length →
        data.get? (4 * k + 1) = data.get? (4 * k) ∧
        data.get? (4 * k + 2) = data.get? (4 * k)) →
      applyLoop (createGradientLUT bwParsed) i data = RemapResult.done data := by
  intro n
  induction n using Nat.strong_induction_on with
  | _ n ih =>
    intro i data hn hi h4 hbytes hgray
    by_cases hlt : i < data.length
    · have hi4 : i + 4 ≤ data.length := by omega
      obtain ⟨r, hr⟩ : ∃ r, data.get? i = some r := by
        cases he : data.get? i with
        | none => rw [List.get?_eq_none] at he; omega
        | some r => exact ⟨r, rfl⟩
      have hk : 4 * (i / 4) = i := by omega
      have hg2 := hgray (i / 4) (by omega)
      rw [hk] at hg2
      have hg : data.get? (i + 1) = some r := by rw [hg2.1, hr]
      have hb : data.get? (i + 2) = some r := by rw [hg2.2, hr]
      obtain ⟨hrb0, hrb1⟩ := hbytes r (List.get?_mem hr)
      have hpc : pixelColor (createGradientLUT bwParsed) data i =
          some { r := JsNum.num (r : ℚ), g := JsNum.num (r : ℚ),
                 b := JsNum.num (r : ℚ) } := by
        simp only [pixelColor, hr, hg, hb, lumIndex_diag]
        rw [if_neg (by omega)]
        exact bwLUT_get_int r hrb0 hrb1
      rw [applyLoop, dif_pos hlt]
      simp only [hpc]
      have hcb : clampByte (JsNum.num (r : ℚ)) = r := clampByte_int hrb0 hrb1
      simp only [hcb]
      rw [set_get?_same data i r hr]
      rw [set_get?_same data (i + 1) r hg]
      rw [set_get?_same data (i + 2) r hb]
      exact ih (data.length - (i + 4)) (by omega) (i + 4) data rfl (by omega)
        h4 hbytes hgray
    · rw [applyLoop, dif_neg hlt]

-- ## Claim C4

/-- C4: for the black-to-white gradient parsed from "000000,FFFFFF",
remapping any grayscale byte buffer is the identity (the grayscale ramp
reproduces itself, since the LUT at index v is (v,v,v)), and the output
luminance is monotonically non-decreasing in the input luminance. -/
theorem bw_gradient_preserves_grayscale_ramp (data : List ℤ)
    (h4 : data.length % 4 = 0)
    (hbytes : ∀ x ∈ data, 0 ≤ x ∧ x ≤ 255)
    (hgray : ∀ k, k < data.length → 4 * k + 2 < data.length →
      data.get? (4 * k + 1) = data.get? (4 * k) ∧
      data.get? (4 * k + 2) = data.get? (4 * k)) :
    applyGradientMap bwParsed data = RemapResult.done data ∧
    ∀ v1 v2 : ℤ, 0 ≤ v1 → v1 ≤ v2 → v2 ≤ 255 →
      lumIndex v1 v1 v1 ≤ lumIndex v2 v2 v2 := by
  constructor
  · simp only [applyGradientMap]
    rw [if_neg (by rw [bwParsed_eq]; simp)]
    exact applyLoop_bw_gray (data.length - 0) 0 data rfl (by norm_num) h4 hbytes
      (fun k hk => hgray k (by omega) hk)
  · intro v1 v2 h0 h12 h2
    rw [lumIndex_diag, lumIndex_diag]
    exact h12

/-- C4 witness: the theorem applied to the one-pixel grayscale buffer
(7,7,7,200). -/
theorem bw_gradient_preserves_grayscale_ramp_witness :
    (([7, 7, 7, 200] : List ℤ).length % 4 = 0 ∧
     (∀ x ∈ ([7, 7, 7, 200] : List ℤ), 0 ≤ x ∧ x ≤ 255) ∧
     (∀ k, k < ([7, 7, 7, 200] : List ℤ).length →
       4 * k + 2 < ([7, 7, 7, 200] : List ℤ).length →
       ([7, 7, 7, 200] : List ℤ).get? (4 * k + 1) =
         ([7, 7, 7, 200] : List ℤ).get? (4 * k) ∧
       ([7, 7, 7, 200] : List ℤ).get? (4 * k + 2) =
         ([7, 7, 7, 200] : List ℤ).get? (4 * k))) ∧
    (applyGradientMap bwParsed [7, 7, 7, 200] = RemapResult.done [7, 7, 7, 200] ∧
     ∀ v1 v2 : ℤ, 0 ≤ v1 → v1 ≤ v2 → v2 ≤ 255 →
       lumIndex v1 v1 v1 ≤ lumIndex v2 v2 v2) :=
  ⟨⟨by norm_num, by with_unfolding_all decide, by with_unfolding_all decide⟩,
   bw_gradient_preserves_grayscale_ramp [7, 7, 7, 200] (by norm_num)
     (by with_unfolding_all decide) (by with_unfolding_all decide)⟩

-- ## Claim C9

/-- C9 counterexample: a 5-byte buffer (length not a multiple of 4) with
the valid black-to-white LUT is not rejected up front: the loop rewrites
the whole first pixel (10,20,30 becomes 18,18,18) and only then fails on
the trailing partial pixel, so output was produced before the failure. -/
theorem remap_not_fail_fast_cex :
    applyGradientMap bwParsed [10, 20, 30, 40, 50] =
      RemapResult.err [18, 18, 18, 40, 50] ∧
    ([18, 18, 18, 40, 50] : List ℤ) ≠ [10, 20, 30, 40, 50] :=
  ⟨by with_unfolding_all decide, by with_unfolding_all decide⟩

/-- C9 amended: applyGradientMap performs no precondition validation at
all.  With a buffer whose length is not a multiple of 4 it rewrites every
complete leading pixel and then throws on the trailing partial pixel
(undefined reads make the luminance NaN and the LUT lookup undefined);
with a LUT shorter than 256 entries it rewrites the pixels preceding the
first out-of-range luminance and throws there.  In both cases the failure
arrives mid-loop, after partial output, not as a fail-fast signal. -/
theorem remap_no_precondition_check :
    applyGradientMap bwParsed [10, 20, 30, 1, 40, 50] =
      RemapResult.err [18, 18, 18, 1, 40, 50] ∧
    applyLoop (List.replicate 100
        { r := JsNum.num 7, g := JsNum.num 7, b := JsNum.num 7 }) 0
        [0, 0, 0, 1, 255, 255, 255, 2] =
      RemapResult.err [7, 7, 7, 1, 255, 255, 255, 2] :=
  ⟨by with_unfolding_all decide, by with_unfolding_all decide⟩

-- ## Claim C10

/-- C10: when the parsed stop list is empty, applyGradientMap returns
early with the buffer untouched in every channel of every pixel — a true
no-op, not a write of the zero-stop black colour. -/
theorem empty_stops_noop (input : String) (data : List ℤ)
    (h : parseColorInput input = []) :
    applyGradientMap (parseColorInput input) data = RemapResult.done data := by
  rw [h]
  rfl

/-- C10 witness: the theorem applied to the unparseable gradient text
"ZZZZZZ" and a concrete buffer. -/
theorem empty_stops_noop_witness :
    parseColorInput "ZZZZZZ" = [] ∧
    applyGradientMap (parseColorInput "ZZZZZZ") [5, 6, 7, 8] =
      RemapResult.done [5, 6, 7, 8] :=
  ⟨by with_unfolding_all decide,
   empty_stops_noop "ZZZZZZ" [5, 6, 7, 8] (by with_unfolding_all decide)⟩
